import Mathlib

/-!
Verification of the Workstream interactive tree-visualization engine.

This file shallowly embeds the geometry / interaction core of the
repository and proves properties about it:

* `calculateTreeLayout` / `processNode` from `src/hooks/useVisualization.ts`
  (the layout engine),
* `buildFocusedTree` / `findAncestorChain` / `createCollapsedPlaceholder`
  (the focus-mode projector),
* `getInitialOffsets` / `getAdjustedPosition`, `fitAll`, the wheel/button
  zoom operations and the node drag gesture state machine from
  `src/components/visualization/StreamTree.tsx`.

JavaScript numbers are modelled as rationals (`ℚ`); all coordinate
arithmetic in the source is exact on the inputs considered here.
JS falsy checks on numbers (`v || d`) are modelled explicitly where the
value can be `0`, and optional-chaining lookups are modelled with
`Option`.
-/

namespace Workstream

/-- Embedding of `StreamWithChildren` restricted to the fields the
visualization core reads: `id`, `parent_stream_id`, `title`,
`position_x`/`position_y` (absent ↦ `none`) and the synthetic
`_collapsed` marker `(count, originalIds)` set only on focus-mode
placeholder nodes.  Fields the engine never branches on (status,
timestamps, …) are omitted; the collapsed placeholder fills them with
constants or with the (nondeterministic) current time. -/
inductive Tree where
  | node (id : String) (parentStreamId : Option String) (title : String)
      (positionX positionY : Option ℚ)
      (collapsedInfo : Option (Nat × List String))
      (children : List Tree)

def Tree.id : Tree → String
  | .node i _ _ _ _ _ _ => i

def Tree.parentStreamId : Tree → Option String
  | .node _ p _ _ _ _ _ => p

def Tree.title : Tree → String
  | .node _ _ t _ _ _ _ => t

def Tree.positionX : Tree → Option ℚ
  | .node _ _ _ px _ _ _ => px

def Tree.positionY : Tree → Option ℚ
  | .node _ _ _ _ py _ _ => py

def Tree.collapsedInfo : Tree → Option (Nat × List String)
  | .node _ _ _ _ _ c _ => c

def Tree.children : Tree → List Tree
  | .node _ _ _ _ _ _ cs => cs

/-- Replace the `children` field, keeping every other field (the JS
spread `{ ...node, children: cs }`). -/
def Tree.withChildren : Tree → List Tree → Tree
  | .node i p t px py c _, cs => .node i p t px py c cs

/-! ## The layout engine (`useVisualization.ts`) -/

/-- Embedding of `VisualizationConfig`. -/
structure VisualizationConfig where
  nodeWidth : ℚ
  nodeHeight : ℚ
  horizontalSpacing : ℚ
  verticalSpacing : ℚ
  padding : ℚ
  deriving DecidableEq

/-- Embedding of `defaultConfig` (`nodeWidth: 320, nodeHeight: 100,
horizontalSpacing: 60, verticalSpacing: 40, padding: 40`). -/
def defaultConfig : VisualizationConfig :=
  { nodeWidth := 320, nodeHeight := 100, horizontalSpacing := 60,
    verticalSpacing := 40, padding := 40 }

/-- Embedding of the `TreeNode` record produced by `calculateTreeLayout`.
The `stream` back-reference is dropped (never read by the layout engine
itself); `parentId` is `parentNode?.id || node.parent_stream_id`, and
since every call site of `processNode` passes `parentNode = null`, it is
always the node's own `parent_stream_id`. -/
structure LayoutNode where
  id : String
  x : ℚ
  y : ℚ
  width : ℚ
  height : ℚ
  parentId : Option String
  deriving DecidableEq

/-- Embedding of the `TreeLink` record (field `sourcex` is spelled that
way in the source). -/
structure LayoutLink where
  sourceId : String
  targetId : String
  sourcex : ℚ
  sourceY : ℚ
  targetX : ℚ
  targetY : ℚ
  deriving DecidableEq

/-- The mutable state threaded through `processNode`: the `nodes` array
(JS `push` appends at the end) and the running `maxX`/`maxY`. -/
structure LayoutState where
  nodes : List LayoutNode
  maxX : ℚ
  maxY : ℚ
  deriving DecidableEq

/-- Embedding of `nodes.find((n) => n.id === id)`: first match from the
front of the array. -/
def findNodeById (nodes : List LayoutNode) (id : String) : Option LayoutNode :=
  nodes.find? (fun n => n.id == id)

/-- Embedding of `nodes.find((n) => n.id === cid)?.y || dflt`: the JS
`||` falls back to `dflt` both when the node is absent (`undefined`) and
when its `y` is the falsy number `0`. -/
def childYor (nodes : List LayoutNode) (cid : String) (dflt : ℚ) : ℚ :=
  (findNodeById nodes cid).elim dflt (fun n => if n.y = 0 then dflt else n.y)

mutual

/-- Embedding of `processNode` from `calculateTreeLayout`
(`useVisualization.ts`).  Children are processed first (pushing their
nodes), then the parent's `y` is replaced by the midpoint of the
`find`-looked-up first/last child `y` (with the JS `|| y` fallback),
then the parent's node is pushed.  The `if (parentNode)` link push in
the source is dead code: both call sites pass `parentNode = null`, so no
link is ever created in this pass.  Returns the updated state and the
returned sibling counter. -/
def processNode (cfg : VisualizationConfig) : Tree → Nat → ℚ → LayoutState →
    LayoutState × ℚ
  | Tree.node i p _ _ _ _ cs, depth, siblingIndex, st =>
    let x : ℚ := (depth : ℚ) * (cfg.nodeWidth + cfg.horizontalSpacing) + cfg.padding
    let y0 : ℚ := siblingIndex * (cfg.nodeHeight + cfg.verticalSpacing) + cfg.padding
    let r := processChildren cfg cs (depth + 1) siblingIndex st
    let st1 := r.1
    let y : ℚ :=
      match cs with
      | [] => y0
      | c0 :: rest =>
        let firstChildY := childYor st1.nodes c0.id y0
        let lastChildY := childYor st1.nodes ((rest.getLastD c0).id) y0
        (firstChildY + lastChildY) / 2
    let nd : LayoutNode :=
      { id := i, x := x, y := y, width := cfg.nodeWidth, height := cfg.nodeHeight,
        parentId := p }
    let st2 : LayoutState :=
      { nodes := st1.nodes ++ [nd],
        maxX := max st1.maxX (x + cfg.nodeWidth),
        maxY := max st1.maxY (y + cfg.nodeHeight) }
    (st2, match cs with | [] => siblingIndex + 1 | _ :: _ => r.2)

/-- Embedding of the `node.children.forEach` loop in `processNode` (and
of the root loop, which is identical with `depth = 0`): the sibling
counter is threaded left to right. -/
def processChildren (cfg : VisualizationConfig) : List Tree → Nat → ℚ →
    LayoutState → LayoutState × ℚ
  | [], _, idx, st => (st, idx)
  | c :: cs', depth, idx, st =>
    let r := processNode cfg c depth idx st
    processChildren cfg cs' depth r.2 r.1

end

/-- Embedding of the second link pass for one node: `if (node.parentId)`
(falsy for `null`/`undefined`/`""`), then `nodes.find` for the parent. -/
def linksOfNode (cfg : VisualizationConfig) (nodes : List LayoutNode)
    (n : LayoutNode) : List LayoutLink :=
  n.parentId.elim [] (fun p =>
    if p = "" then []
    else
      (findNodeById nodes p).elim [] (fun parent =>
        [{ sourceId := parent.id, targetId := n.id,
           sourcex := parent.x + cfg.nodeWidth,
           sourceY := parent.y + cfg.nodeHeight / 2,
           targetX := n.x,
           targetY := n.y + cfg.nodeHeight / 2 }]))

/-- Embedding of one step of
`new Map(links.map((l) => [key, l]))`: a JS `Map` keeps keys in first-
insertion order and the value of the last insertion. -/
def upsertLink (acc : List LayoutLink) (l : LayoutLink) : List LayoutLink :=
  if acc.any (fun m => m.sourceId == l.sourceId && m.targetId == l.targetId) then
    acc.map (fun m =>
      if m.sourceId == l.sourceId && m.targetId == l.targetId then l else m)
  else
    acc ++ [l]

/-- Embedding of `[...new Map(links.map((l) => [sourceId-targetId, l])).values()]`. -/
def dedupLinks (links : List LayoutLink) : List LayoutLink :=
  links.foldl upsertLink []

/-- Output record of `calculateTreeLayout`. -/
structure LayoutResult where
  nodes : List LayoutNode
  links : List LayoutLink
  width : ℚ
  height : ℚ
  deriving DecidableEq

/-- Embedding of `calculateTreeLayout`: process the roots with a shared
sibling counter starting at `0`, build the links in a second pass over
the finished node array, dedup them, and report
`width = maxX + padding`, `height = maxY + padding`. -/
def calculateTreeLayout (cfg : VisualizationConfig) (tree : List Tree) :
    LayoutResult :=
  let st := (processChildren cfg tree 0 0 { nodes := [], maxX := 0, maxY := 0 }).1
  { nodes := st.nodes,
    links := dedupLinks (st.nodes.foldr (fun n acc => linksOfNode cfg st.nodes n ++ acc) []),
    width := st.maxX + cfg.padding,
    height := st.maxY + cfg.padding }

/-! ## Claim C1: the two-leaf-children scenario -/

/-- A childless stream used in concrete scenarios. -/
def leafStream (i : String) (p : Option String) : Tree :=
  Tree.node i p i none none none []

/-- The scenario tree `A→B, A→C`: root `A` with the two leaf children
`B` then `C`. -/
def scenarioTwoChildren : Tree :=
  Tree.node "A" none "A" none none none
    [leafStream "B" (some "A"), leafStream "C" (some "A")]

/-! ## Claim C2: parent centering

`processNode` looks the first and last child up by id
(`nodes.find((n) => n.id === ...)`) and falls back to the parent's own
provisional `y` through the JS `|| y` when the looked-up `y` is the
falsy number `0`.  Both quirks break the universally quantified claim;
it holds once ids are distinct and every computed `y` is positive. -/

mutual

/-- Ids of a subtree, root first. -/
def subtreeIds : Tree → List String
  | .node i _ _ _ _ _ cs => i :: forestIds cs

/-- Ids of a forest of subtrees. -/
def forestIds : List Tree → List String
  | [] => []
  | t :: ts => subtreeIds t ++ forestIds ts

end

mutual

/-- Every subtree of a tree, the tree itself included. -/
def allSubtrees : Tree → List Tree
  | .node i p ti px py c cs => Tree.node i p ti px py c cs :: allSubtreesF cs

/-- Every subtree of any tree of a forest. -/
def allSubtreesF : List Tree → List Tree
  | [] => []
  | t :: ts => allSubtrees t ++ allSubtreesF ts

end

def nodeIds (L : List LayoutNode) : List String := L.map LayoutNode.id

/-- The parent-centering property for one subtree `t`, read off a
finished layout-node array `L`: if `t` has children, the layout node
found for `t` sits at the midpoint of the layout nodes found for its
first and its last child. -/
def midpointAt (L : List LayoutNode) (t : Tree) : Prop :=
  ∀ c0 rest, t.children = c0 :: rest →
    ∃ n nf nl, findNodeById L t.id = some n ∧
      findNodeById L c0.id = some nf ∧
      findNodeById L ((rest.getLastD c0).id) = some nl ∧
      n.y = (nf.y + nl.y) / 2

/-- The duplicate-id tree: root `A` with two children both named `"X"`. -/
def scenarioDupIds : Tree :=
  Tree.node "A" none "A" none none none
    [leafStream "X" (some "A"), leafStream "X" (some "A")]

/-! ## The focus-mode projector (`buildFocusedTree` and helpers)

The focus helpers live next to `buildStreamTree` in the tree-utility
module.  `walkLevel` from the source is split here into `walkList` (the
`for (const node of onPath)` loop) and `placeholderPart` (the trailing
`if (offPath.length > 0)` push); `walkLevel` itself is their
concatenation. -/

/-- Embedding of `countAllNodes`: number of nodes in a forest,
descendants included. -/
def countAllNodes : List Tree → Nat
  | [] => 0
  | Tree.node _ _ _ _ _ _ cs :: rest => 1 + countAllNodes cs + countAllNodes rest

/-- Embedding of `collectAllIds`: every id of a forest, each node before
its descendants, siblings left to right. -/
def collectAllIds : List Tree → List String
  | [] => []
  | Tree.node i _ _ _ _ _ cs :: rest => i :: (collectAllIds cs ++ collectAllIds rest)

/-- The JS `originalIds[0] || 'root'`: falls back to `"root"` when the
list is empty (`undefined`) and when the first id is the falsy `""`. -/
def headIdOr (l : List String) : String :=
  l.head?.elim "root" (fun s => if s = "" then "root" else s)

/-- Embedding of `createCollapsedPlaceholder`: the synthetic stream that
replaces an off-path sibling group.  Fields the engine never branches on
(`project_id`, statuses, the `new Date()` timestamps, …) are omitted
from `Tree`; the placeholder has no persisted position and no children,
and carries `_collapsed = (count, originalIds)`. -/
def createCollapsedPlaceholder (nodes : List Tree) (parentId : Option String) : Tree :=
  Tree.node
    ("collapsed-" ++ headIdOr (collectAllIds nodes))
    parentId
    (toString (countAllNodes nodes) ++ " stream" ++
      (if countAllNodes nodes ≠ 1 then "s" else ""))
    none none
    (some (countAllNodes nodes, collectAllIds nodes))
    []

/-- Embedding of `findAncestorChain`: depth-first search returning the
root-to-target id path, a node's own subtree searched before its later
siblings.  The JS `if (found) return found` is the `Option.elim` (a
returned array is always truthy). -/
def findAncestorChain : List Tree → String → List String → Option (List String)
  | [], _, _ => none
  | Tree.node i _ _ _ _ _ cs :: rest, targetId, path =>
    if i = targetId then some (path ++ [i])
    else (findAncestorChain cs targetId (path ++ [i])).elim
      (findAncestorChain rest targetId path) some

/-- Off-path siblings of one level: the nodes whose id is not in the
ancestor set (`ancestorSet.has`, the set being built from the chain). -/
def offPathOf (aset : List String) (nodes : List Tree) : List Tree :=
  nodes.filter (fun n => !(aset.contains n.id))

/-- The trailing `if (offPath.length > 0) result.push(...)` of
`walkLevel`. -/
def placeholderPart (aset : List String) (nodes : List Tree)
    (parentId : Option String) : List Tree :=
  if (offPathOf aset nodes).isEmpty then []
  else [createCollapsedPlaceholder (offPathOf aset nodes) parentId]

mutual

/-- One on-path node of `walkLevel`: the focused node is kept verbatim,
a proper ancestor is rebuilt with its children walked
(`{ ...node, children: walkLevel(node.children, node.id) }`). -/
def walkNode (aset : List String) (fid : String) : Tree → Tree
  | Tree.node i p ti px py cc cs =>
    if i = fid then Tree.node i p ti px py cc cs
    else Tree.node i p ti px py cc
      (walkList aset fid cs ++ placeholderPart aset cs (some i))

/-- The `for (const node of onPath)` loop of `walkLevel`, fused with the
partition: off-path nodes are skipped (they are handled by
`placeholderPart`), on-path nodes are walked in order. -/
def walkList (aset : List String) (fid : String) : List Tree → List Tree
  | [] => []
  | n :: rest =>
    (if aset.contains n.id then [walkNode aset fid n] else []) ++
      walkList aset fid rest

end

/-- Embedding of `walkLevel`: walked on-path nodes in order, then one
collapsed placeholder when off-path siblings exist. -/
def walkLevel (aset : List String) (fid : String) (nodes : List Tree)
    (parentId : Option String) : List Tree :=
  walkList aset fid nodes ++ placeholderPart aset nodes parentId

/-- Embedding of `buildFocusedTree`: when the focused id has no ancestor
chain (`!chain || chain.length === 0`) the tree is returned unchanged;
otherwise each level is walked with the chain as ancestor set. -/
def buildFocusedTree (tree : List Tree) (focusedStreamId : String) : List Tree :=
  (findAncestorChain tree focusedStreamId []).elim tree (fun chain =>
    if chain.length = 0 then tree
    else walkLevel chain focusedStreamId tree none)

/-! ## Claim C5: focus idempotence -/

/-- The tree `A→B, A→C` as a forest, for focusing on `C`. -/
def focusPairTree : List Tree :=
  [Tree.node "A" none "A" none none none
    [leafStream "B" (some "A"), leafStream "C" (some "A")]]

mutual

/-- Whether the synthetic `_collapsed` marker occurs anywhere in a
tree. -/
def hasCollapsedT : Tree → Bool
  | Tree.node _ _ _ _ _ cc cs => cc.isSome || hasCollapsedF cs

/-- Whether the synthetic `_collapsed` marker occurs anywhere in a
forest. -/
def hasCollapsedF : List Tree → Bool
  | [] => false
  | t :: ts => hasCollapsedT t || hasCollapsedF ts

end

/-- The single chain `A→C`, on which focusing on `C` collapses
nothing. -/
def focusChainTree : List Tree :=
  [Tree.node "A" none "A" none none none [leafStream "C" (some "A")]]

/-! ## Offsets (`StreamTree.tsx`): `getInitialOffsets` / `getAdjustedPosition`

A JS object keyed by node id is modelled as a lookup function; property
assignment is pointwise update. -/

def OffsetMap : Type := String → Option (ℚ × ℚ)

def emptyOffsets : OffsetMap := fun _ => none

/-- JS `offsets[k] = v`. -/
def offsetInsert (m : OffsetMap) (k : String) (v : ℚ × ℚ) : OffsetMap :=
  fun q => if q = k then some v else m q

/-- One node's contribution in `getInitialOffsets`: when both
`position_x` and `position_y` are persisted and the id has a layout
node, store `offset = persisted − baseLayoutPosition`. -/
def seedOne (layoutNodes : List LayoutNode) (i : String) (px py : Option ℚ)
    (acc : OffsetMap) : OffsetMap :=
  px.elim acc (fun vx => py.elim acc (fun vy =>
    (findNodeById layoutNodes i).elim acc
      (fun ln => offsetInsert acc i (vx - ln.x, vy - ln.y))))

/-- Embedding of `getInitialOffsets` (`StreamTree.tsx`): walk the stream
tree depth-first (each node before its children, siblings left to
right), seeding offsets from persisted positions. -/
def getInitialOffsets (layoutNodes : List LayoutNode) :
    List Tree → OffsetMap → OffsetMap
  | [], acc => acc
  | Tree.node i _ _ px py _ cs :: rest, acc =>
    getInitialOffsets layoutNodes rest
      (getInitialOffsets layoutNodes cs (seedOne layoutNodes i px py acc))

/-- Embedding of `getAdjustedPosition` (`StreamTree.tsx`): in focus mode
with a `focusYOverrides` entry the base `x` is kept and `y` is replaced;
otherwise the node offset is added to the base position, defaulting to
`(0,0)` when absent (the JS `nodeOffsets[nodeId]?.x || 0`, whose falsy
`0` fallback returns the same value). -/
def getAdjustedPosition (focusOverride : Option ℚ) (offsets : OffsetMap)
    (nodeId : String) (baseX baseY : ℚ) : ℚ × ℚ :=
  focusOverride.elim
    (baseX + ((offsets nodeId).map Prod.fst).getD 0,
     baseY + ((offsets nodeId).map Prod.snd).getD 0)
    (fun oy => (baseX, oy))

/-- The layout node and stream used in the C6 witness. -/
def witnessLayoutNode : LayoutNode :=
  { id := "A", x := 40, y := 110, width := 320, height := 100, parentId := none }

def witnessStream : Tree := Tree.node "A" none "A" (some 500) (some 600) none []

/-! ## Viewport zoom (`StreamTree.tsx`): claim C7

Every zoom mutation in the source is one of: a wheel/pinch step
(`handleWheelZoom`), the zoom-in / zoom-out buttons (through
`animateZoomTo`), or `fitAll` — each of which animates from the current
zoom to a target with easeOutCubic frames.  `wheelZoomTarget` is a ref
re-synced to `zoom` on every render and clamped on every wheel step. -/

/-- `Math.min(3, Math.max(0.2, z))` from `handleWheelZoom`. -/
def clampZoom (z : ℚ) : ℚ := min 3 (max (1/5) z)

/-- `1 - Math.pow(1 - t, 3)` — the easing used by every animation loop
(`t = min(elapsed/duration, 1)`, so `t ∈ [0, 1]`). -/
def easeOutCubic (t : ℚ) : ℚ := 1 - (1 - t)^3

/-- One animation frame: `start + (target − start) * ease`. -/
def lerp (a b e : ℚ) : ℚ := a + (b - a) * e

/-- The zoom computed by `fitAll`:
`Math.max(Math.min(Math.min(availW/contentW, availH/contentH), 3), 0.2)`. -/
def fitAllZoom (availW availH contentW contentH : ℚ) : ℚ :=
  max (min (min (availW / contentW) (availH / contentH)) 3) (1/5)

/-- The zoom-relevant state: the rendered `zoom` and the accumulated
`wheelZoomTarget` ref. -/
structure ViewState where
  zoom : ℚ
  wheelTarget : ℚ

/-- States reachable from the initial `zoom = 1` by any interleaving of
zoom operations, every intermediate animation frame included: a frame of
a wheel-zoom animation toward the clamped accumulated target, a frame of
a zoom-in / zoom-out button animation, a frame of a `fitAll` animation
(with arbitrary container/content ratios), and the per-render re-sync of
the wheel target.  Pan-only animations leave `zoom` unchanged and add no
new states. -/
inductive ZoomReachable : ViewState → Prop
  | init : ZoomReachable { zoom := 1, wheelTarget := 1 }
  | sync {s : ViewState} : ZoomReachable s →
      ZoomReachable { zoom := s.zoom, wheelTarget := s.zoom }
  | wheelFrame {s : ViewState} (delta t : ℚ) (ht0 : 0 ≤ t) (ht1 : t ≤ 1) :
      ZoomReachable s →
      ZoomReachable
        { zoom := lerp s.zoom (clampZoom (s.wheelTarget + delta)) (easeOutCubic t),
          wheelTarget := clampZoom (s.wheelTarget + delta) }
  | zoomInFrame {s : ViewState} (t : ℚ) (ht0 : 0 ≤ t) (ht1 : t ≤ 1) :
      ZoomReachable s →
      ZoomReachable
        { zoom := lerp s.zoom (min 3 (s.zoom + 3/20)) (easeOutCubic t),
          wheelTarget := s.wheelTarget }
  | zoomOutFrame {s : ViewState} (t : ℚ) (ht0 : 0 ≤ t) (ht1 : t ≤ 1) :
      ZoomReachable s →
      ZoomReachable
        { zoom := lerp s.zoom (max (1/5) (s.zoom - 3/20)) (easeOutCubic t),
          wheelTarget := s.wheelTarget }
  | fitAllFrame {s : ViewState} (availW availH contentW contentH t : ℚ)
      (ht0 : 0 ≤ t) (ht1 : t ≤ 1) :
      ZoomReachable s →
      ZoomReachable
        { zoom := lerp s.zoom (fitAllZoom availW availH contentW contentH)
            (easeOutCubic t),
          wheelTarget := s.wheelTarget }

/-! ## `fitAll` edge cases (`StreamTree.tsx`): claim C9 -/

/-- `liveOffsets[id] || savedOffsets[id] || { x: 0, y: 0 }` (objects are
truthy, so only absence falls through). -/
def offsetOrDefault (live saved : OffsetMap) (id : String) : ℚ × ℚ :=
  (live id).elim ((saved id).elim (0, 0) (fun v => v)) (fun v => v)

/-- The `animateViewTo` target computed by `fitAll`. -/
structure FitResult where
  panX : ℚ
  panY : ℚ
  zoom : ℚ
  deriving DecidableEq

/-- Embedding of `fitAll`: `none` models the early
`if (!containerRef.current || layout.nodes.length === 0) return` (no
animation started, pan and zoom untouched); otherwise the result is the
`animateViewTo` target.  The JS `±Infinity` seeds of the bounding-box
loop are modelled by seeding with the first node, which is equal for the
nonempty list guaranteed by the guard. -/
def fitAll (containerRect : Option (ℚ × ℚ)) (layoutNodes : List LayoutNode)
    (liveOffsets savedOffsets : OffsetMap) : Option FitResult :=
  match containerRect, layoutNodes with
  | none, _ => none
  | some _, [] => none
  | some wh, n0 :: restNodes =>
    let eff : LayoutNode → ℚ × ℚ := fun n =>
      let off := offsetOrDefault liveOffsets savedOffsets n.id
      (n.x + off.1, n.y + off.2)
    let minX := restNodes.foldl (fun a n => min a (eff n).1) (eff n0).1
    let minY := restNodes.foldl (fun a n => min a (eff n).2) (eff n0).2
    let maxX := restNodes.foldl (fun a n => max a ((eff n).1 + n.width)) ((eff n0).1 + n0.width)
    let maxY := restNodes.foldl (fun a n => max a ((eff n).2 + n.height)) ((eff n0).2 + n0.height)
    let contentW := maxX - minX
    let contentH := maxY - minY
    let availW := wh.1 - 60 * 2
    let availH := wh.2 - 60 * 2
    let z := fitAllZoom availW availH contentW contentH
    some { panX := (wh.1 - contentW * z) / 2 - minX * z,
           panY := (wh.2 - contentH * z) / 2 - minY * z,
           zoom := z }

/-! ## The node drag gesture (`StreamTree.tsx`): claims C8 and C10 -/

/-- The per-gesture mutable state: the `hasDragged` latch and the
`dragOffsetRef` value. -/
structure GestureAcc where
  hasDragged : Bool
  dragOffset : ℚ × ℚ
  deriving DecidableEq

/-- Embedding of the `nodeDrag` `on('drag')` handler for one pointer
event at client position `e`: when the position lock is on, the handler
returns before doing anything; otherwise the world-space delta is the
screen delta divided by `zoom`, `hasDragged` latches once
`|dx| > 3 || |dy| > 3` (strict), and while latched the drag offset is
recomputed from the current delta. -/
def dragStep (locked : Bool)
    (zoom startX startY nodeStartX nodeStartY nodeX nodeY : ℚ)
    (acc : GestureAcc) (e : ℚ × ℚ) : GestureAcc :=
  if locked then acc
  else
    let dx := (e.1 - startX) / zoom
    let dy := (e.2 - startY) / zoom
    let hd := acc.hasDragged || (decide (3 < |dx|) || decide (3 < |dy|))
    if hd then
      { hasDragged := true,
        dragOffset := (nodeStartX + dx - nodeX, nodeStartY + dy - nodeY) }
    else acc

/-- A whole gesture: fold the drag handler over the pointer-move events,
starting from the fresh `hasDragged = false` state (the stale
`dragOffsetRef` initial value is only read after `hasDragged` has been
set, so `(0,0)` is observationally equivalent). -/
def runDrag (locked : Bool)
    (zoom startX startY nodeStartX nodeStartY nodeX nodeY : ℚ)
    (moves : List (ℚ × ℚ)) : GestureAcc :=
  moves.foldl (dragStep locked zoom startX startY nodeStartX nodeStartY nodeX nodeY)
    { hasDragged := false, dragOffset := (0, 0) }

/-- What the `on('end')` handler does: either commit the offset and fire
the persistence request, or emit the selection. -/
structure GestureOutcome where
  selected : Bool
  offsets : OffsetMap
  persist : Option (String × ℚ × ℚ)

/-- Embedding of the `nodeDrag` `on('end')` handler: a gesture that
dragged commits `dragOffsetRef` into `nodeOffsets[node.id]` and issues
`onUpdateStreamPosition(node.id, node.x + off.x, node.y + off.y)`; one
that never crossed the threshold emits `onSelectStream` and leaves the
offsets untouched. -/
def nodeDragEnd (node : LayoutNode) (offsets : OffsetMap) (acc : GestureAcc) :
    GestureOutcome :=
  if acc.hasDragged then
    { selected := false,
      offsets := offsetInsert offsets node.id acc.dragOffset,
      persist := some (node.id, node.x + acc.dragOffset.1, node.y + acc.dragOffset.2) }
  else
    { selected := true, offsets := offsets, persist := none }

/-! ## Theorems -/

theorem Tree.withChildren_self (t : Tree) : t.withChildren t.children = t := by
  cases t
  rfl

theorem findNodeById_nil (i : String) : findNodeById [] i = none := rfl

theorem findNodeById_cons (n : LayoutNode) (ns : List LayoutNode) (i : String) :
    findNodeById (n :: ns) i = if n.id = i then some n else findNodeById ns i := by
  by_cases h : n.id = i <;> simp [findNodeById, List.find?_cons, h]

/-- Claim C1: on the tree `A→B, A→C` under the default config
(`nodeWidth=320, nodeHeight=100, horizontalSpacing=60,
verticalSpacing=40, padding=40`), `calculateTreeLayout` assigns
`B=(420,40)`, `C=(420,180)` and `A=(40,110)` (so `A.x=40`,
`B.x=C.x=420`, `B.y=40`, `C.y=180`, and `A.y=110`, the midpoint of `40`
and `180`).  The nodes are emitted in depth-first postorder. -/
theorem layout_two_children_scenario :
    (calculateTreeLayout defaultConfig [scenarioTwoChildren]).nodes.map
        (fun n => (n.id, n.x, n.y)) =
      [("B", 420, 40), ("C", 420, 180), ("A", 40, 110)] := by
  simp [calculateTreeLayout, processChildren, processNode, childYor,
    findNodeById_cons, findNodeById_nil, defaultConfig, scenarioTwoChildren,
    leafStream, Tree.id]
  norm_num

/-! ## Claim C3: the empty tree -/

/-- Claim C3 fails on the code: on the empty tree, `calculateTreeLayout` does
return empty node and link sequences, but the bounding box is
`width = height = padding = 40` under the default config (the source
computes `maxX + padding` with `maxX = 0`), not `0` as claimed. -/
theorem layout_empty_counterexample :
    (calculateTreeLayout defaultConfig []).nodes = [] ∧
    (calculateTreeLayout defaultConfig []).links = [] ∧
    (calculateTreeLayout defaultConfig []).width = 40 ∧
    ¬ ((calculateTreeLayout defaultConfig []).width = 0 ∧
       (calculateTreeLayout defaultConfig []).height = 0) := by
  refine ⟨rfl, rfl, by norm_num [calculateTreeLayout, processChildren, defaultConfig], ?_⟩
  rintro ⟨h, -⟩
  rw [show (calculateTreeLayout defaultConfig []).width = 40 by
    norm_num [calculateTreeLayout, processChildren, defaultConfig]] at h
  norm_num at h

/-- Claim C3 amended: for every config, `calculateTreeLayout` on the empty
tree returns empty node and link sequences and a bounding box of
`width = height = padding` (not `0`). -/
theorem layout_empty_amended (cfg : VisualizationConfig) :
    calculateTreeLayout cfg [] =
      { nodes := [], links := [], width := cfg.padding, height := cfg.padding } := by
  simp [calculateTreeLayout, processChildren, dedupLinks]

theorem nodeIds_append (L M : List LayoutNode) :
    nodeIds (L ++ M) = nodeIds L ++ nodeIds M := List.map_append _ _ _

theorem findNodeById_id {L : List LayoutNode} {i : String} {n : LayoutNode}
    (h : findNodeById L i = some n) : n.id = i := by
  have := List.find?_some h
  simpa using this

theorem findNodeById_eq_none {L : List LayoutNode} {i : String}
    (h : i ∉ nodeIds L) : findNodeById L i = none := by
  rw [findNodeById, List.find?_eq_none]
  intro n hn
  simp only [beq_iff_eq]
  intro hni
  exact h (hni ▸ List.mem_map_of_mem LayoutNode.id hn)

theorem findNodeById_append_left {L : List LayoutNode} {i : String}
    {n : LayoutNode} (M : List LayoutNode) (h : findNodeById L i = some n) :
    findNodeById (L ++ M) i = some n := by
  rw [findNodeById, List.find?_append]
  rw [findNodeById] at h
  rw [h]
  rfl

theorem findNodeById_append_right {L : List LayoutNode} {i : String}
    (M : List LayoutNode) (h : i ∉ nodeIds L) :
    findNodeById (L ++ M) i = findNodeById M i := by
  rw [findNodeById, List.find?_append]
  have := findNodeById_eq_none h
  rw [findNodeById] at this
  rw [this]
  rfl

theorem midpointAt_append {L : List LayoutNode} {t : Tree}
    (M : List LayoutNode) (h : midpointAt L t) : midpointAt (L ++ M) t := by
  intro c0 rest hc
  obtain ⟨n, nf, nl, h1, h2, h3, h4⟩ := h c0 rest hc
  exact ⟨n, nf, nl, findNodeById_append_left M h1, findNodeById_append_left M h2,
    findNodeById_append_left M h3, h4⟩

theorem getLastD_mem {α : Type} (l : List α) (a : α) : l.getLastD a ∈ a :: l := by
  induction l generalizing a with
  | nil => simp
  | cons b l' ih =>
    rw [List.getLastD_cons]
    rcases List.mem_cons.mp (ih b) with h | h
    · rw [h]; simp
    · exact List.mem_cons_of_mem a (List.mem_cons_of_mem b h)

theorem mem_subtreeIds_self (t : Tree) : t.id ∈ subtreeIds t := by
  cases t
  simp [subtreeIds, Tree.id]

theorem subtreeIds_subset_forestIds {c : Tree} {ts : List Tree} (hc : c ∈ ts) :
    ∀ a ∈ subtreeIds c, a ∈ forestIds ts := by
  induction ts with
  | nil => cases hc
  | cons t ts' ih =>
    intro a ha
    rcases List.mem_cons.mp hc with h | h
    · subst h; simp [forestIds, ha]
    · simp [forestIds, ih h a ha]

theorem childYor_eq {L : List LayoutNode} {cid : String} {nf : LayoutNode}
    (d : ℚ) (h : findNodeById L cid = some nf) (hy : nf.y ≠ 0) :
    childYor L cid d = nf.y := by
  simp [childYor, h, hy]

theorem mem_nodeIds {L : List LayoutNode} {a : String} (h : a ∈ nodeIds L) :
    ∃ n ∈ L, n.id = a := by
  simpa [nodeIds] using h

theorem findNodeById_snoc_self (L : List LayoutNode) (n : LayoutNode)
    (h : n.id ∉ nodeIds L) : findNodeById (L ++ [n]) n.id = some n := by
  rw [findNodeById_append_right _ h, findNodeById_cons]
  simp

mutual

/-- The invariant carried by `processNode` when every id in the subtree
is fresh and the config keeps all `y` positive: the call appends exactly
the subtree's nodes, each with `y ≥ padding`; the subtree root is
afterwards findable by id with `y ≥ padding`; the sibling counter does
not decrease; and every subtree with children satisfies the
parent-centering property in the resulting array. -/
theorem processNode_inv (cfg : VisualizationConfig) (hh : 0 ≤ cfg.nodeHeight)
    (hv : 0 ≤ cfg.verticalSpacing) (hp : 0 < cfg.padding) :
    ∀ (t : Tree) (depth : Nat) (idx : ℚ) (st : LayoutState),
      0 ≤ idx → (subtreeIds t).Nodup →
      (∀ a ∈ subtreeIds t, a ∉ nodeIds st.nodes) →
      (∃ Δ, (processNode cfg t depth idx st).1.nodes = st.nodes ++ Δ ∧
          ∀ n ∈ Δ, n.id ∈ subtreeIds t ∧ cfg.padding ≤ n.y) ∧
      (∃ rn, findNodeById (processNode cfg t depth idx st).1.nodes t.id = some rn ∧
          cfg.padding ≤ rn.y) ∧
      idx ≤ (processNode cfg t depth idx st).2 ∧
      (∀ t' ∈ allSubtrees t, midpointAt (processNode cfg t depth idx st).1.nodes t')
  | Tree.node i p ti px py cc cs, depth, idx, st, hidx, hnd, hdisj => by
    have hnd' : (i :: forestIds cs).Nodup := hnd
    have hinotin : i ∉ forestIds cs := (List.nodup_cons.mp hnd').1
    have hndf : (forestIds cs).Nodup := (List.nodup_cons.mp hnd').2
    have hdisjf : ∀ a ∈ forestIds cs, a ∉ nodeIds st.nodes := fun a ha =>
      hdisj a (List.mem_cons_of_mem i ha)
    have hdisji : i ∉ nodeIds st.nodes := hdisj i (List.mem_cons_self i _)
    have hch := processChildren_inv cfg hh hv hp cs (depth + 1) idx st hidx hndf hdisjf
    cases cs with
    | nil =>
      have hy0 : cfg.padding ≤ idx * (cfg.nodeHeight + cfg.verticalSpacing) + cfg.padding := by
        nlinarith
      simp only [processNode, processChildren]
      refine ⟨⟨[_], rfl, ?_⟩, ⟨_, findNodeById_snoc_self st.nodes _ hdisji, hy0⟩,
        by linarith, ?_⟩
      · intro n hn
        rcases List.mem_singleton.mp hn with rfl
        exact ⟨by simp [subtreeIds, forestIds], hy0⟩
      · intro t' ht'
        rcases List.mem_singleton.mp (by simpa [allSubtrees, allSubtreesF] using ht') with rfl
        intro c0' rest' hch'
        simp [Tree.children] at hch'
    | cons c0 rest =>
      obtain ⟨⟨Δ1, hΔeq, hΔmem⟩, hfinds, hle, hmids⟩ := hch
      obtain ⟨nf, hnf, hnfy⟩ := hfinds c0 (List.mem_cons_self c0 rest)
      obtain ⟨nl, hnl, hnly⟩ := hfinds (rest.getLastD c0) (getLastD_mem rest c0)
      have hnf0 : nf.y ≠ 0 := (ne_of_gt (lt_of_lt_of_le hp hnfy))
      have hnl0 : nl.y ≠ 0 := (ne_of_gt (lt_of_lt_of_le hp hnly))
      have hinotΔ1 : i ∉ nodeIds Δ1 := by
        intro hmem
        obtain ⟨n, hn, hni⟩ := mem_nodeIds hmem
        exact hinotin (hni ▸ (hΔmem n hn).1)
      have hinot1 : i ∉ nodeIds (processChildren cfg (c0 :: rest) (depth + 1) idx st).1.nodes := by
        rw [hΔeq, nodeIds_append]
        intro hmem
        rcases List.mem_append.mp hmem with h | h
        · exact hdisji h
        · exact hinotΔ1 h
      simp only [processNode]
      rw [childYor_eq _ hnf hnf0, childYor_eq _ hnl hnl0]
      have hmidy : cfg.padding ≤ (nf.y + nl.y) / 2 := by linarith
      refine ⟨⟨Δ1 ++ [_], by rw [hΔeq, List.append_assoc], ?_⟩,
        ⟨_, findNodeById_snoc_self _ _ hinot1, hmidy⟩, hle, ?_⟩
      · intro n hn
        rcases List.mem_append.mp hn with h | h
        · exact ⟨List.mem_cons_of_mem i (hΔmem n h).1, (hΔmem n h).2⟩
        · rcases List.mem_singleton.mp h with rfl
          exact ⟨List.mem_cons_self i _, hmidy⟩
      · intro t' ht'
        rcases List.mem_cons.mp (by simpa [allSubtrees] using ht') with rfl | h
        · intro c0' rest' hch'
          have hch'' : c0 :: rest = c0' :: rest' := hch'
          injection hch'' with h1 h2
          subst h1
          subst h2
          exact ⟨_, nf, nl, findNodeById_snoc_self _ _ hinot1,
            findNodeById_append_left _ hnf, findNodeById_append_left _ hnl, rfl⟩
        · exact midpointAt_append _ (hmids t' h)

/-- The invariant of the sibling loop: same as `processNode_inv`, plus
the fact that every direct member of the forest is findable by id
afterwards (used by the parent to read its first/last child `y`). -/
theorem processChildren_inv (cfg : VisualizationConfig) (hh : 0 ≤ cfg.nodeHeight)
    (hv : 0 ≤ cfg.verticalSpacing) (hp : 0 < cfg.padding) :
    ∀ (ts : List Tree) (depth : Nat) (idx : ℚ) (st : LayoutState),
      0 ≤ idx → (forestIds ts).Nodup →
      (∀ a ∈ forestIds ts, a ∉ nodeIds st.nodes) →
      (∃ Δ, (processChildren cfg ts depth idx st).1.nodes = st.nodes ++ Δ ∧
          ∀ n ∈ Δ, n.id ∈ forestIds ts ∧ cfg.padding ≤ n.y) ∧
      (∀ c ∈ ts, ∃ cn,
          findNodeById (processChildren cfg ts depth idx st).1.nodes c.id = some cn ∧
          cfg.padding ≤ cn.y) ∧
      idx ≤ (processChildren cfg ts depth idx st).2 ∧
      (∀ t' ∈ allSubtreesF ts, midpointAt (processChildren cfg ts depth idx st).1.nodes t')
  | [], depth, idx, st, hidx, hnd, hdisj => by
    simp only [processChildren]
    exact ⟨⟨[], by simp, by simp⟩, by simp, le_refl idx, by simp [allSubtreesF]⟩
  | c :: cs', depth, idx, st, hidx, hnd, hdisj => by
    have hndapp := List.nodup_append.mp (show (subtreeIds c ++ forestIds cs').Nodup from hnd)
    have hndc : (subtreeIds c).Nodup := hndapp.1
    have hndcs : (forestIds cs').Nodup := hndapp.2.1
    have hdisjsub : (subtreeIds c).Disjoint (forestIds cs') := hndapp.2.2
    have hdisjc : ∀ a ∈ subtreeIds c, a ∉ nodeIds st.nodes := fun a ha =>
      hdisj a (List.mem_append_left _ ha)
    have hdisjcs : ∀ a ∈ forestIds cs', a ∉ nodeIds st.nodes := fun a ha =>
      hdisj a (List.mem_append_right _ ha)
    obtain ⟨⟨Δc, hΔc, hΔcmem⟩, ⟨cn, hcn, hcny⟩, hle1, hmid1⟩ :=
      processNode_inv cfg hh hv hp c depth idx st hidx hndc hdisjc
    have hidx2 : 0 ≤ (processNode cfg c depth idx st).2 := le_trans hidx hle1
    have hdisj2 : ∀ a ∈ forestIds cs',
        a ∉ nodeIds (processNode cfg c depth idx st).1.nodes := by
      intro a ha
      rw [hΔc, nodeIds_append]
      intro hmem
      rcases List.mem_append.mp hmem with h | h
      · exact hdisjcs a ha h
      · obtain ⟨n, hn, hni⟩ := mem_nodeIds h
        exact hdisjsub (hni ▸ (hΔcmem n hn).1) ha
    obtain ⟨⟨Δ', hΔ', hΔ'mem⟩, hfinds', hle2, hmids'⟩ :=
      processChildren_inv cfg hh hv hp cs' depth (processNode cfg c depth idx st).2
        (processNode cfg c depth idx st).1 hidx2 hndcs hdisj2
    simp only [processChildren]
    refine ⟨⟨Δc ++ Δ', by rw [hΔ', hΔc, List.append_assoc], ?_⟩, ?_, le_trans hle1 hle2, ?_⟩
    · intro n hn
      rcases List.mem_append.mp hn with h | h
      · exact ⟨List.mem_append_left _ (hΔcmem n h).1, (hΔcmem n h).2⟩
      · exact ⟨List.mem_append_right _ (hΔ'mem n h).1, (hΔ'mem n h).2⟩
    · intro x hx
      rcases List.mem_cons.mp hx with rfl | h
      · exact ⟨cn, by rw [hΔ']; exact findNodeById_append_left _ hcn, hcny⟩
      · exact hfinds' x h
    · intro t' ht'
      rcases List.mem_append.mp (by simpa [allSubtreesF] using ht') with h | h
      · rw [hΔ']
        exact midpointAt_append _ (hmid1 t' h)
      · exact hmids' t' h

end

/-- Claim C2 fails as stated: `processNode` looks children up by id with
`nodes.find`, so when the two children of `A` share the id `"X"` the
lookup returns the first `"X"` node (`y = 40`) for both the first and
the last child, and `A` gets `y = (40+40)/2 = 40` instead of the true
midpoint `(40+180)/2 = 110` of its first child's `y = 40` and last
child's `y = 180`. -/
theorem layout_parent_centering_counterexample :
    ((calculateTreeLayout defaultConfig [scenarioDupIds]).nodes.map
        (fun n => (n.id, n.y)) = [("X", 40), ("X", 180), ("A", 40)]) ∧
    ¬ ((40 : ℚ) = (40 + 180) / 2) := by
  constructor
  · simp [calculateTreeLayout, processChildren, processNode, childYor,
      findNodeById_cons, findNodeById_nil, defaultConfig, scenarioDupIds,
      leafStream, Tree.id]
    norm_num
  · norm_num

/-- Claim C2 amended: for every config with `nodeHeight ≥ 0`,
`verticalSpacing ≥ 0` and `padding > 0` (so every computed `y` is
positive and the JS `|| y` zero-fallback never fires), and every input
tree whose node ids are pairwise distinct (so the `nodes.find` id lookup
returns the actual child), every node with at least one child is laid
out at `y` equal to the arithmetic midpoint of its first and last
child's `y`. -/
theorem layout_parent_centering_amended (cfg : VisualizationConfig)
    (hh : 0 ≤ cfg.nodeHeight) (hv : 0 ≤ cfg.verticalSpacing)
    (hp : 0 < cfg.padding) (tree : List Tree) (hnd : (forestIds tree).Nodup) :
    ∀ t ∈ allSubtreesF tree, ∀ c0 rest, t.children = c0 :: rest →
      ∃ n nf nl,
        findNodeById (calculateTreeLayout cfg tree).nodes t.id = some n ∧
        findNodeById (calculateTreeLayout cfg tree).nodes c0.id = some nf ∧
        findNodeById (calculateTreeLayout cfg tree).nodes ((rest.getLastD c0).id) = some nl ∧
        n.y = (nf.y + nl.y) / 2 := by
  intro t ht
  have h := processChildren_inv cfg hh hv hp tree 0 0
    { nodes := [], maxX := 0, maxY := 0 } le_rfl hnd (by simp [nodeIds])
  exact h.2.2.2 t ht

/-- Witness for the amended C2 on the concrete scenario `A→B, A→C` with
the default config. -/
theorem layout_parent_centering_witness :
    ∃ n nf nl,
      findNodeById (calculateTreeLayout defaultConfig [scenarioTwoChildren]).nodes
        scenarioTwoChildren.id = some n ∧
      findNodeById (calculateTreeLayout defaultConfig [scenarioTwoChildren]).nodes
        (leafStream "B" (some "A")).id = some nf ∧
      findNodeById (calculateTreeLayout defaultConfig [scenarioTwoChildren]).nodes
        (([leafStream "C" (some "A")]).getLastD (leafStream "B" (some "A"))).id = some nl ∧
      n.y = (nf.y + nl.y) / 2 :=
  layout_parent_centering_amended defaultConfig
    (by norm_num [defaultConfig]) (by norm_num [defaultConfig])
    (by norm_num [defaultConfig]) [scenarioTwoChildren]
    (by simp [forestIds, subtreeIds, scenarioTwoChildren, leafStream])
    scenarioTwoChildren
    (by simp [allSubtreesF, allSubtrees, scenarioTwoChildren, leafStream])
    (leafStream "B" (some "A")) [leafStream "C" (some "A")] rfl

/-! ## Claim C4: a missing focus target leaves the tree unchanged -/

theorem findAncestorChain_eq_none :
    ∀ (nodes : List Tree) (targetId : String) (path : List String),
      targetId ∉ forestIds nodes → findAncestorChain nodes targetId path = none
  | [], _, _, _ => by simp [findAncestorChain]
  | Tree.node i p ti px py cc cs :: rest, tid, path, h => by
    have hsplit : ¬(tid = i ∨ tid ∈ forestIds cs ∨ tid ∈ forestIds rest) := by
      intro hc
      apply h
      simp only [forestIds, subtreeIds, List.mem_append, List.mem_cons]
      tauto
    push_neg at hsplit
    obtain ⟨h1, h2, h3⟩ := hsplit
    rw [findAncestorChain, if_neg (fun he => h1 he.symm),
      findAncestorChain_eq_none cs tid (path ++ [i]) h2,
      findAncestorChain_eq_none rest tid path h3]
    rfl

/-- Claim C4: if the focused id occurs nowhere in the tree,
`buildFocusedTree` returns the full tree unchanged (no collapsing, no
placeholders); being a total function of its inputs, it cannot throw. -/
theorem buildFocusedTree_missing_id (tree : List Tree) (fid : String)
    (h : fid ∉ forestIds tree) : buildFocusedTree tree fid = tree := by
  rw [buildFocusedTree, findAncestorChain_eq_none tree fid [] h]
  rfl

/-- Witness for C4: focusing on the absent id `"Z"` leaves the
`A→B, A→C` tree untouched. -/
theorem buildFocusedTree_missing_id_witness :
    "Z" ∉ forestIds [scenarioTwoChildren] ∧
    buildFocusedTree [scenarioTwoChildren] "Z" = [scenarioTwoChildren] :=
  ⟨by decide, buildFocusedTree_missing_id _ _ (by decide)⟩

/-- All definitions needed to evaluate `buildFocusedTree` on concrete
input by rewriting. -/
theorem focusPair_first_eval :
    (buildFocusedTree focusPairTree "C").map
      (fun t => t.children.map Tree.id) = [["C", "collapsed-B"]] := by
  simp [buildFocusedTree, findAncestorChain, walkLevel, walkList, walkNode,
    placeholderPart, offPathOf, createCollapsedPlaceholder, headIdOr,
    collectAllIds, countAllNodes, focusPairTree, leafStream, Tree.id,
    Tree.children, List.contains, List.filter]

theorem focusPair_second_eval :
    (buildFocusedTree (buildFocusedTree focusPairTree "C") "C").map
      (fun t => t.children.map Tree.id) = [["C", "collapsed-collapsed-B"]] := by
  simp [buildFocusedTree, findAncestorChain, walkLevel, walkList, walkNode,
    placeholderPart, offPathOf, createCollapsedPlaceholder, headIdOr,
    collectAllIds, countAllNodes, focusPairTree, leafStream, Tree.id,
    Tree.children, List.contains, List.filter]

/-- Claim C5 fails as stated: focusing `A→B, A→C` on `C` collapses `B` into a
placeholder `collapsed-B`, and a second application of
`buildFocusedTree` to its own output re-collapses that placeholder into
a fresh node `collapsed-collapsed-B` (with a recomputed count), so the
projector is not idempotent whenever the first pass collapsed
anything. -/
theorem focus_idempotence_counterexample :
    buildFocusedTree (buildFocusedTree focusPairTree "C") "C" ≠
      buildFocusedTree focusPairTree "C" := by
  intro h
  have e2 := focusPair_second_eval
  rw [h, focusPair_first_eval] at e2
  simp at e2

theorem hasCollapsedF_append (a b : List Tree) :
    hasCollapsedF (a ++ b) = (hasCollapsedF a || hasCollapsedF b) := by
  induction a with
  | nil => simp [hasCollapsedF]
  | cons t ts ih => simp [hasCollapsedF, ih, Bool.or_assoc]

theorem hasCollapsedT_placeholder (nodes : List Tree) (pid : Option String) :
    hasCollapsedT (createCollapsedPlaceholder nodes pid) = true := by
  simp [createCollapsedPlaceholder, hasCollapsedT]

theorem offPath_nil_of_noCollapsed {aset : List String} {fid : String}
    {nodes : List Tree} {pid : Option String}
    (h : hasCollapsedF (walkLevel aset fid nodes pid) = false) :
    offPathOf aset nodes = [] ∧ hasCollapsedF (walkList aset fid nodes) = false := by
  rw [walkLevel, hasCollapsedF_append, Bool.or_eq_false_iff] at h
  refine ⟨?_, h.1⟩
  by_contra hne
  have hempty : ¬((offPathOf aset nodes).isEmpty = true) := by
    simpa [List.isEmpty_iff] using hne
  have h2 := h.2
  rw [placeholderPart, if_neg hempty] at h2
  simp [hasCollapsedF, hasCollapsedT_placeholder] at h2

theorem contains_of_offPath_nil {aset : List String} {nodes : List Tree}
    (h : offPathOf aset nodes = []) :
    ∀ n ∈ nodes, aset.contains n.id = true := by
  intro n hn
  have h3 := List.filter_eq_nil_iff.mp
    (show List.filter (fun n => !(aset.contains n.id)) nodes = [] from h) n hn
  simpa using h3

mutual

theorem walkNode_eq_self (aset : List String) (fid : String) :
    ∀ t : Tree, hasCollapsedT (walkNode aset fid t) = false → walkNode aset fid t = t
  | Tree.node i p ti px py cc cs, h => by
    rw [walkNode] at h ⊢
    by_cases hif : i = fid
    · rw [if_pos hif]
    · rw [if_neg hif] at h ⊢
      rw [hasCollapsedT] at h
      have h2 := Bool.or_eq_false_iff.mp h
      have hlev : hasCollapsedF (walkLevel aset fid cs (some i)) = false := by
        rw [walkLevel]; exact h2.2
      obtain ⟨hoff, hwl⟩ := offPath_nil_of_noCollapsed hlev
      rw [walkList_eq_self aset fid cs (contains_of_offPath_nil hoff) hwl,
        placeholderPart, if_pos (by simp [hoff]), List.append_nil]

theorem walkList_eq_self (aset : List String) (fid : String) :
    ∀ ts : List Tree, (∀ n ∈ ts, aset.contains n.id = true) →
      hasCollapsedF (walkList aset fid ts) = false → walkList aset fid ts = ts
  | [], _, _ => by rw [walkList]
  | n :: rest, hall, h => by
    rw [walkList, if_pos (hall n (List.mem_cons_self n rest))] at h ⊢
    rw [List.singleton_append] at h ⊢
    rw [hasCollapsedF] at h
    have h2 := Bool.or_eq_false_iff.mp h
    rw [walkNode_eq_self aset fid n h2.1,
      walkList_eq_self aset fid rest (fun m hm => hall m (List.mem_cons_of_mem n hm)) h2.2]

end

theorem walkLevel_eq_self {aset : List String} {fid : String} {nodes : List Tree}
    {pid : Option String}
    (h : hasCollapsedF (walkLevel aset fid nodes pid) = false) :
    walkLevel aset fid nodes pid = nodes := by
  obtain ⟨hoff, hwl⟩ := offPath_nil_of_noCollapsed h
  rw [walkLevel, placeholderPart, if_pos (by simp [hoff]), List.append_nil]
  exact walkList_eq_self aset fid nodes (contains_of_offPath_nil hoff) hwl

/-- When the focus projection introduced no collapsed placeholder, it
did not change the tree at all. -/
theorem buildFocusedTree_eq_self_of_noCollapsed (tree : List Tree) (fid : String)
    (h : hasCollapsedF (buildFocusedTree tree fid) = false) :
    buildFocusedTree tree fid = tree := by
  rw [buildFocusedTree] at h ⊢
  cases hch : findAncestorChain tree fid [] with
  | none => rfl
  | some chain =>
    rw [hch] at h
    simp only [Option.elim] at h ⊢
    by_cases hlen : chain.length = 0
    · rw [if_pos hlen]
    · rw [if_neg hlen] at h ⊢
      exact walkLevel_eq_self h

/-- Claim C5 amended: applying `buildFocusedTree` twice with the same focused
id is a no-op beyond the first application *provided the first
application collapsed nothing* (its output contains no `_collapsed`
placeholder); when it did collapse a sibling group, the second pass
re-wraps the placeholder into a fresh `collapsed-collapsed-…` node, as
the counterexample shows. -/
theorem focus_idempotent_amended (tree : List Tree) (fid : String)
    (h : hasCollapsedF (buildFocusedTree tree fid) = false) :
    buildFocusedTree (buildFocusedTree tree fid) fid = buildFocusedTree tree fid := by
  have he := buildFocusedTree_eq_self_of_noCollapsed tree fid h
  rw [he]
  exact he

/-- Witness for the amended C5 on the chain `A→C` focused on `C`. -/
theorem focus_idempotent_witness :
    hasCollapsedF (buildFocusedTree focusChainTree "C") = false ∧
    buildFocusedTree (buildFocusedTree focusChainTree "C") "C" =
      buildFocusedTree focusChainTree "C" :=
  ⟨by simp [buildFocusedTree, findAncestorChain, walkLevel, walkList, walkNode,
      placeholderPart, offPathOf, hasCollapsedT, hasCollapsedF, focusChainTree,
      leafStream, Tree.id, Tree.children, List.contains, List.filter],
   focus_idempotent_amended focusChainTree "C"
    (by simp [buildFocusedTree, findAncestorChain, walkLevel, walkList, walkNode,
      placeholderPart, offPathOf, hasCollapsedT, hasCollapsedF, focusChainTree,
      leafStream, Tree.id, Tree.children, List.contains, List.filter])⟩

/-! ## Claim C6: offset round-trip -/

theorem offsetInsert_self (m : OffsetMap) (k : String) (v : ℚ × ℚ) :
    offsetInsert m k v k = some v := by
  simp [offsetInsert]

theorem offsetInsert_ne (m : OffsetMap) {k q : String} (v : ℚ × ℚ)
    (h : q ≠ k) : offsetInsert m k v q = m q := by
  simp [offsetInsert, h]

theorem seedOne_ne (layoutNodes : List LayoutNode) (i : String)
    (px py : Option ℚ) (acc : OffsetMap) {k : String} (h : k ≠ i) :
    seedOne layoutNodes i px py acc k = acc k := by
  cases px with
  | none => rfl
  | some vx =>
    cases py with
    | none => rfl
    | some vy =>
      cases hf : findNodeById layoutNodes i with
      | none => simp [seedOne, hf]
      | some ln => simp [seedOne, hf, offsetInsert_ne _ _ h]

theorem getInitialOffsets_preserve (layoutNodes : List LayoutNode) :
    ∀ (ts : List Tree) (acc : OffsetMap) (k : String), k ∉ forestIds ts →
      getInitialOffsets layoutNodes ts acc k = acc k
  | [], _, _, _ => by simp [getInitialOffsets]
  | Tree.node i p ti px py cc cs :: rest, acc, k, hk => by
    have hsplit : ¬(k = i ∨ k ∈ forestIds cs ∨ k ∈ forestIds rest) := by
      intro hc
      apply hk
      simp only [forestIds, subtreeIds, List.mem_append, List.mem_cons]
      tauto
    push_neg at hsplit
    obtain ⟨h1, h2, h3⟩ := hsplit
    rw [getInitialOffsets,
      getInitialOffsets_preserve layoutNodes rest _ k h3,
      getInitialOffsets_preserve layoutNodes cs _ k h2,
      seedOne_ne layoutNodes i px py acc h1]

/-- The id of any subtree of a forest occurs among the forest's ids. -/
theorem id_mem_forestIds :
    ∀ (ts : List Tree) (t : Tree), t ∈ allSubtreesF ts → t.id ∈ forestIds ts
  | [], _, h => by simp [allSubtreesF] at h
  | Tree.node i p ti px py cc cs :: rest, t, h => by
    rw [allSubtreesF, allSubtrees] at h
    rcases List.mem_append.mp h with h | h
    · rcases List.mem_cons.mp h with rfl | h
      · simp [forestIds, subtreeIds, Tree.id]
      · have := id_mem_forestIds cs t h
        simp only [forestIds, subtreeIds, List.mem_append, List.mem_cons]
        tauto
    · have := id_mem_forestIds rest t h
      simp only [forestIds, List.mem_append]
      tauto

/-- Seeding writes exactly `persisted − base` for a node with persisted
position whose id occurs once in the tree. -/
theorem getInitialOffsets_lookup (layoutNodes : List LayoutNode) :
    ∀ (ts : List Tree) (acc : OffsetMap), (forestIds ts).Nodup →
      ∀ t ∈ allSubtreesF ts, ∀ (vx vy : ℚ) (ln : LayoutNode),
        t.positionX = some vx → t.positionY = some vy →
        findNodeById layoutNodes t.id = some ln →
        getInitialOffsets layoutNodes ts acc t.id = some (vx - ln.x, vy - ln.y)
  | [], _, _, t, ht, _, _, _, _, _, _ => by simp [allSubtreesF] at ht
  | Tree.node i p ti px py cc cs :: rest, acc, hnd, t, ht, vx, vy, ln, hx, hy, hln => by
    have hndstr : ((i :: forestIds cs) ++ forestIds rest).Nodup := hnd
    have happ := List.nodup_append.mp hndstr
    have hicons := List.nodup_cons.mp happ.1
    rw [allSubtreesF, allSubtrees] at ht
    rw [getInitialOffsets]
    rcases List.mem_append.mp ht with h | h
    · rcases List.mem_cons.mp h with rfl | h
      · -- `t` is this very node: the seed happens in `seedOne`, and
        -- neither the children walk nor later siblings touch the key.
        rw [show Tree.id (Tree.node i p ti px py cc cs) = i from rfl] at hln ⊢
        rw [show Tree.positionX (Tree.node i p ti px py cc cs) = px from rfl] at hx
        rw [show Tree.positionY (Tree.node i p ti px py cc cs) = py from rfl] at hy
        subst hx
        subst hy
        rw [getInitialOffsets_preserve layoutNodes rest _ i
            (fun hmem => happ.2.2 (List.mem_cons_self i _) hmem),
          getInitialOffsets_preserve layoutNodes cs _ i hicons.1]
        simp [seedOne, hln, offsetInsert_self]
      · -- `t` is a proper descendant: seeded inside the children walk,
        -- and later siblings do not touch its id.
        have hid := id_mem_forestIds cs t h
        rw [getInitialOffsets_preserve layoutNodes rest _ t.id
            (fun hmem => happ.2.2 (List.mem_cons_of_mem i hid) hmem)]
        exact getInitialOffsets_lookup layoutNodes cs _ hicons.2 t h vx vy ln hx hy hln
    · -- `t` lives in a later sibling subtree.
      exact getInitialOffsets_lookup layoutNodes rest _ happ.2.1 t h vx vy ln hx hy hln

/-- Claim C6: for every stream with a persisted absolute position whose id is
laid out (ids pairwise distinct), seeding the offset as
`persisted − base` and then computing the adjusted position
`base + offset` (with `(0,0)` default when absent) reproduces exactly
the persisted absolute position. -/
theorem offset_roundtrip (layoutNodes : List LayoutNode) (tree : List Tree)
    (hnd : (forestIds tree).Nodup) (t : Tree) (ht : t ∈ allSubtreesF tree)
    (vx vy : ℚ) (hx : t.positionX = some vx) (hy : t.positionY = some vy)
    (ln : LayoutNode) (hln : findNodeById layoutNodes t.id = some ln) :
    getAdjustedPosition none (getInitialOffsets layoutNodes tree emptyOffsets)
      t.id ln.x ln.y = (vx, vy) := by
  have hlook := getInitialOffsets_lookup layoutNodes tree emptyOffsets hnd t ht
    vx vy ln hx hy hln
  simp [getAdjustedPosition, hlook]

/-- Witness for C6: a single stream `"A"` persisted at `(500, 600)` with
base layout position `(40, 110)` round-trips to `(500, 600)`. -/
theorem offset_roundtrip_witness :
    getAdjustedPosition none
      (getInitialOffsets [witnessLayoutNode] [witnessStream] emptyOffsets)
      witnessStream.id witnessLayoutNode.x witnessLayoutNode.y = (500, 600) :=
  offset_roundtrip [witnessLayoutNode] [witnessStream]
    (by simp [forestIds, subtreeIds, witnessStream])
    witnessStream
    (by simp [allSubtreesF, allSubtrees, witnessStream])
    500 600 rfl rfl witnessLayoutNode
    (by simp [findNodeById_cons, witnessStream, witnessLayoutNode, Tree.id])

theorem easeOutCubic_mem {t : ℚ} (h0 : 0 ≤ t) (h1 : t ≤ 1) :
    0 ≤ easeOutCubic t ∧ easeOutCubic t ≤ 1 := by
  unfold easeOutCubic
  constructor <;> nlinarith [sq_nonneg (1 - t), sq_nonneg t]

theorem lerp_mem {lo hi a b e : ℚ} (ha0 : lo ≤ a) (ha1 : a ≤ hi)
    (hb0 : lo ≤ b) (hb1 : b ≤ hi) (he0 : 0 ≤ e) (he1 : e ≤ 1) :
    lo ≤ lerp a b e ∧ lerp a b e ≤ hi := by
  unfold lerp
  constructor <;> nlinarith

theorem clampZoom_mem (z : ℚ) : 1/5 ≤ clampZoom z ∧ clampZoom z ≤ 3 := by
  unfold clampZoom
  constructor
  · exact le_min (by norm_num) (le_max_left _ _)
  · exact min_le_left _ _

theorem fitAllZoom_mem (availW availH contentW contentH : ℚ) :
    1/5 ≤ fitAllZoom availW availH contentW contentH ∧
    fitAllZoom availW availH contentW contentH ≤ 3 := by
  unfold fitAllZoom
  constructor
  · exact le_max_right _ _
  · exact max_le (le_trans (min_le_right _ _) (by norm_num)) (by norm_num)

/-- Claim C7: starting from the initial zoom `1`, every reachable zoom value —
every frame of every wheel/pinch, button, or fit-all animation — stays
inside the closed interval `[0.2, 3.0]`. -/
theorem zoom_clamp_invariant (s : ViewState) (h : ZoomReachable s) :
    1/5 ≤ s.zoom ∧ s.zoom ≤ 3 := by
  induction h with
  | init => norm_num
  | sync _ ih => exact ih
  | wheelFrame delta t ht0 ht1 _ ih =>
    exact lerp_mem ih.1 ih.2 (clampZoom_mem _).1 (clampZoom_mem _).2
      (easeOutCubic_mem ht0 ht1).1 (easeOutCubic_mem ht0 ht1).2
  | zoomInFrame t ht0 ht1 _ ih =>
    have he := easeOutCubic_mem ht0 ht1
    refine lerp_mem ih.1 ih.2 ?_ ?_ he.1 he.2
    · exact le_min (by norm_num) (by linarith [ih.1])
    · exact min_le_left _ _
  | zoomOutFrame t ht0 ht1 _ ih =>
    have he := easeOutCubic_mem ht0 ht1
    refine lerp_mem ih.1 ih.2 (le_max_left _ _) ?_ he.1 he.2
    · exact max_le (by norm_num) (by linarith [ih.2])
  | fitAllFrame availW availH contentW contentH t ht0 ht1 _ ih =>
    exact lerp_mem ih.1 ih.2 (fitAllZoom_mem availW availH contentW contentH).1
      (fitAllZoom_mem availW availH contentW contentH).2
      (easeOutCubic_mem ht0 ht1).1 (easeOutCubic_mem ht0 ht1).2

/-- Witness for C7: the mid-animation frame (`t = 1/2`) of a large
wheel-zoom step from the initial state stays within `[0.2, 3]`. -/
theorem zoom_clamp_witness :
    1/5 ≤ (ViewState.mk
      (lerp 1 (clampZoom (1 + 10)) (easeOutCubic (1/2))) (clampZoom (1 + 10))).zoom ∧
    (ViewState.mk
      (lerp 1 (clampZoom (1 + 10)) (easeOutCubic (1/2))) (clampZoom (1 + 10))).zoom ≤ 3 :=
  zoom_clamp_invariant _
    (ZoomReachable.wheelFrame 10 (1/2) (by norm_num) (by norm_num) ZoomReachable.init)

/-- Claim C9 fails as stated for the zero-size half: the guard only checks
`!containerRef.current` and `nodes.length === 0`, not the container's
size, so a `0×0` container with one node still starts an animation —
toward the floor zoom `0.2` (the negative fit ratios are clamped up). -/
theorem fitAll_zero_container_counterexample :
    fitAll (some (0, 0)) [witnessLayoutNode] emptyOffsets emptyOffsets =
      some { panX := -40, panY := -32, zoom := 1/5 } ∧
    fitAll (some (0, 0)) [witnessLayoutNode] emptyOffsets emptyOffsets ≠ none := by
  have h : fitAll (some (0, 0)) [witnessLayoutNode] emptyOffsets emptyOffsets =
      some { panX := -40, panY := -32, zoom := 1/5 } := by
    simp [fitAll, offsetOrDefault, emptyOffsets, witnessLayoutNode, fitAllZoom]
    norm_num
  exact ⟨h, by rw [h]; exact Option.some_ne_none _⟩

/-- Claim C9 amended: `fitAll` is a no-op (starts no animation) when there are
no layout nodes or no container element; a zero-*size* container does
not trigger the guard. -/
theorem fitAll_noop_amended :
    (∀ (c : Option (ℚ × ℚ)) (live saved : OffsetMap), fitAll c [] live saved = none) ∧
    (∀ (nodes : List LayoutNode) (live saved : OffsetMap),
      fitAll none nodes live saved = none) := by
  constructor
  · intro c live saved
    cases c with
    | none => rfl
    | some wh => rfl
  · intro nodes live saved
    rfl

/-- Claim C8 fails at the boundary: the source tests `Math.abs(dx) > 3`
(strict), so a pointer displacement of exactly 3 px (zoom 1) never sets
`hasDragged` and the gesture ends as a click that emits selection, not
as a drag. -/
theorem drag_threshold_counterexample :
    (runDrag false 1 0 0 0 0 0 0 [(3, 0)]).hasDragged = false ∧
    (nodeDragEnd witnessLayoutNode emptyOffsets
      (runDrag false 1 0 0 0 0 0 0 [(3, 0)])).selected = true := by
  have h : runDrag false 1 0 0 0 0 0 0 [(3, 0)] =
      { hasDragged := false, dragOffset := (0, 0) } := by
    have h3 : ¬(3 < |((3 : ℚ) - 0) / 1|) := by norm_num
    have h0 : ¬(3 < |((0 : ℚ) - 0) / 1|) := by norm_num
    simp [runDrag, dragStep, h3, h0]
  rw [h]
  exact ⟨rfl, rfl⟩

theorem foldDrag_hasDragged (zoom sX sY nsX nsY nX nY : ℚ) :
    ∀ (moves : List (ℚ × ℚ)) (acc : GestureAcc),
      (moves.foldl (dragStep false zoom sX sY nsX nsY nX nY) acc).hasDragged =
        (acc.hasDragged ||
          moves.any (fun e => decide (3 < |(e.1 - sX) / zoom|) ||
            decide (3 < |(e.2 - sY) / zoom|))) := by
  intro moves
  induction moves with
  | nil => intro acc; simp
  | cons e ms ih =>
    intro acc
    rw [List.foldl_cons, ih, List.any_cons]
    have hstep : (dragStep false zoom sX sY nsX nsY nX nY acc e).hasDragged =
        (acc.hasDragged || (decide (3 < |(e.1 - sX) / zoom|) ||
          decide (3 < |(e.2 - sY) / zoom|))) := by
      cases hcond : (acc.hasDragged || (decide (3 < |(e.1 - sX) / zoom|) ||
          decide (3 < |(e.2 - sY) / zoom|))) with
      | true => simp [dragStep, hcond]
      | false =>
        have h1 := (Bool.or_eq_false_iff.mp hcond).1
        have h2 := (Bool.or_eq_false_iff.mp hcond).2
        have hx := of_decide_eq_false (Bool.or_eq_false_iff.mp h2).1
        have hy := of_decide_eq_false (Bool.or_eq_false_iff.mp h2).2
        simp [dragStep, hcond, h1, hx, hy]
    rw [hstep, Bool.or_assoc]

/-- Claim C8 amended: with the lock off, a gesture is classified as a drag iff
some pointer event's world-space displacement (screen delta divided by
zoom) exceeds 3 px *strictly* in x or y; at exactly 3 px (and below) it
is a click that emits selection, and the classification latches for the
rest of the gesture once crossed (the fold never resets it). -/
theorem drag_threshold_amended (zoom sX sY nsX nsY nX nY : ℚ)
    (moves : List (ℚ × ℚ)) :
    (runDrag false zoom sX sY nsX nsY nX nY moves).hasDragged = true ↔
      ∃ e ∈ moves, 3 < |(e.1 - sX) / zoom| ∨ 3 < |(e.2 - sY) / zoom| := by
  rw [runDrag, foldDrag_hasDragged]
  simp

/-- With the position lock on, the drag handler ignores every event, so
a whole gesture leaves the per-gesture state untouched. -/
theorem foldDrag_locked (zoom sX sY nsX nsY nX nY : ℚ) :
    ∀ (moves : List (ℚ × ℚ)) (acc : GestureAcc),
      moves.foldl (dragStep true zoom sX sY nsX nsY nX nY) acc = acc := by
  intro moves
  induction moves with
  | nil => intro acc; rfl
  | cons e ms ih =>
    intro acc
    rw [List.foldl_cons, show dragStep true zoom sX sY nsX nsY nX nY acc e = acc
      from rfl, ih]

theorem runDrag_locked (zoom sX sY nsX nsY nX nY : ℚ) (moves : List (ℚ × ℚ)) :
    runDrag true zoom sX sY nsX nsY nX nY moves =
      { hasDragged := false, dragOffset := (0, 0) } := by
  rw [runDrag, foldDrag_locked]

/-- Claim C10: while the position lock is enabled, every node-pointer gesture
— however far the pointer travels — ends by emitting `onSelectStream`,
leaves the offset map unchanged, and issues no
`onUpdateStreamPosition` persistence request. -/
theorem position_lock_gesture (zoom sX sY nsX nsY : ℚ) (node : LayoutNode)
    (offsets : OffsetMap) (moves : List (ℚ × ℚ)) :
    nodeDragEnd node offsets (runDrag true zoom sX sY nsX nsY node.x node.y moves) =
      { selected := true, offsets := offsets, persist := none } := by
  rw [runDrag_locked]
  rfl

end Workstream
